import Mathlib

/-!
Verification of the `liquid_tags/thebe.py` plugin: a directive parser
(regex `FORMAT` + the `thebe` tag function), a cell-range selector
(`SubCell.preprocess`, Python slice semantics), a syntax-highlighter
adapter (`custom_highlighter`) and the surrounding rendering pipeline.

The embedding models the Python source shallowly: strings are Lean
`String`s manipulated through their character lists, the anchored regex
`FORMAT` is modelled by an equivalent deterministic parser, Python ints
are `Int`, Python exceptions become an `Except` error type whose
constructors follow the specification's error names.
-/

namespace Thebe

/-! ## Character classes used by the regex `FORMAT` -/

/-- Python's `\s` character class (ASCII range, as used by the directive
syntax): space, tab, newline, carriage return, vertical tab, form feed. -/
def isPySpace (c : Char) : Bool :=
  c == ' ' || c == '\t' || c == '\n' || c == '\r' || c == '\x0b' || c == '\x0c'

/-- The `[0-9]` class of the regex. -/
def isDigitChar (c : Char) : Bool :=
  c.isDigit

/-- The `[a-z0-9+\-]` class of the `language[...]` capture group. -/
def isLangChar (c : Char) : Bool :=
  c.isLower || c.isDigit || c == '+' || c == '-'

/-! ## Deterministic model of the anchored regex `FORMAT`

`FORMAT = ^(\s+)?(?P<src>\S+)(\s+)?((cells\[)(?P<start>-?[0-9]*):(?P<end>-?[0-9]*)(\]))?(\s+)?((language\[)(?P<language>-?[a-z0-9\+\-]*)(\]))?(\s+)?$`

Because the pattern is anchored at both ends and every alternative inside
it is committed (each optional group starts with a literal the others
cannot start with, and shrinking the greedy `\S+` can never turn a failing
match into a succeeding one), `re.search` on it is equivalent to the
deterministic left-to-right parser below. -/

/-- Result of a successful `FORMAT.search`: the four named capture groups.
An absent optional group is `none`; a participating group that captured
the empty string is `some ""`. -/
structure FormatGroups where
  src : String
  start : Option String
  «end» : Option String
  language : Option String
deriving DecidableEq, Repr

/-- The `-?[0-9]*` capture used for `start` and `end`: an optional dash
followed by a greedy digit run. Returns the capture and the rest. -/
def takeSignedDigits (l : List Char) : String × List Char :=
  match l with
  | [] => ("", [])
  | c :: rest =>
    if c = '-' then
      (String.mk ('-' :: rest.takeWhile isDigitChar), rest.dropWhile isDigitChar)
    else
      (String.mk ((c :: rest).takeWhile isDigitChar), (c :: rest).dropWhile isDigitChar)

/-- The optional group `(cells\[)(?P<start>-?[0-9]*):(?P<end>-?[0-9]*)(\])`.
Returns the two captures and the rest of the input on success. -/
def parseCells (l : List Char) : Option (String × String × List Char) :=
  match l with
  | 'c' :: 'e' :: 'l' :: 'l' :: 's' :: '[' :: rest =>
    let p1 := takeSignedDigits rest
    match p1.2 with
    | ':' :: r2 =>
      let p2 := takeSignedDigits r2
      match p2.2 with
      | ']' :: r4 => some (p1.1, p2.1, r4)
      | _ => none
    | _ => none
  | _ => none

/-- The optional group `(language\[)(?P<language>-?[a-z0-9\+\-]*)(\])`.
Since `-` belongs to the character class itself, the capture is simply the
maximal run of class characters. -/
def parseLanguage (l : List Char) : Option (String × List Char) :=
  match l with
  | 'l' :: 'a' :: 'n' :: 'g' :: 'u' :: 'a' :: 'g' :: 'e' :: '[' :: rest =>
    match rest.dropWhile isLangChar with
    | ']' :: r => some (String.mk (rest.takeWhile isLangChar), r)
    | _ => none
  | _ => none

/-- The part of the pattern after the `src` group: optional whitespace,
optional cells clause, optional whitespace, optional language clause,
optional trailing whitespace, end of input.  `r1` is the input with the
whitespace following `src` already dropped. -/
def formatRest (src r1 : List Char) : Option FormatGroups :=
  match parseCells r1 with
  | some (s, e, r2) =>
    let r3 := r2.dropWhile isPySpace
    match parseLanguage r3 with
    | some (lg, r4) =>
      if r4.dropWhile isPySpace = [] then
        some ⟨String.mk src, some s, some e, some lg⟩
      else none
    | none =>
      if r3 = [] then some ⟨String.mk src, some s, some e, none⟩ else none
  | none =>
    match parseLanguage r1 with
    | some (lg, r4) =>
      if r4.dropWhile isPySpace = [] then
        some ⟨String.mk src, none, none, some lg⟩
      else none
    | none =>
      if r1 = [] then some ⟨String.mk src, none, none, none⟩ else none

/-- Deterministic equivalent of the whole anchored regex on a character
list: leading whitespace, then `src = \S+` (maximal non-space run), then
the optional clauses. -/
def formatAux (l : List Char) : Option FormatGroups :=
  if ((l.dropWhile isPySpace).takeWhile (fun c => !isPySpace c)) = [] then none
  else
    formatRest ((l.dropWhile isPySpace).takeWhile (fun c => !isPySpace c))
      (((l.dropWhile isPySpace).dropWhile (fun c => !isPySpace c)).dropWhile isPySpace)

/-- Model of `FORMAT.search(markup)` from `thebe.py`. -/
def FORMAT_search (markup : String) : Option FormatGroups :=
  formatAux markup.data

/-! ## Error model and directive extraction (the first half of `thebe`) -/

/-- Expected-syntax string `SYNTAX` from `thebe.py` (the braces of the
liquid-tag delimiters written with hex escapes). -/
def SYNTAX : String :=
  "\x7b% thebe /path/to/notebook.ipynb [ cells[start:end] ] [ language[language] ] %\x7d"

/-- The error kinds of the plugin, named after the specification.  In the
Python source all three are `ValueError`s; the constructors keep the
message each `raise`/conversion produces. `IntConvError` is the
`ValueError` that `int()` raises on a non-numeric capture such as `"-"`. -/
inductive ThebeError where
  | MalformedDirective : String → ThebeError
  | IntConvError : String → ThebeError
  | NotebookNotFound : String → ThebeError
deriving DecidableEq, Repr

/-- Decimal value of a digit run, most significant first. -/
def digitsVal (ds : List Char) : Nat :=
  ds.foldl (fun n c => 10 * n + (c.toNat - 48)) 0

/-- Model of Python `int()` restricted to strings matched by `-?[0-9]*`
(the only shapes the capture groups can produce): `none` models the
`ValueError` that `int` raises on the empty string or a bare `"-"`. -/
def pyInt (s : String) : Option Int :=
  match s.data with
  | [] => none
  | c :: rest =>
    if c = '-' then
      if rest = [] then none
      else if rest.all isDigitChar then some (-(digitsVal rest : Int)) else none
    else if (c :: rest).all isDigitChar then some ((digitsVal (c :: rest) : Int)) else none

/-- The parsed form of one directive occurrence (spec data model):
`start` is always an integer after extraction (default 0), `end` stays
optional (`None` selects to the document end). -/
structure Directive where
  src : String
  start : Int
  «end» : Option Int
  language : Option String
deriving DecidableEq, Repr

/-- Model of `if start: start = int(start) else: start = 0` from `thebe`:
the captured group is falsy when absent (`None`) or empty. -/
def convStart : Option String → Except ThebeError Int
  | none => .ok 0
  | some s =>
    if s = "" then .ok 0
    else match pyInt s with
      | some i => .ok i
      | none => .error (.IntConvError s)

/-- Model of `if end: end = int(end) else: end = None` from `thebe`. -/
def convEnd : Option String → Except ThebeError (Option Int)
  | none => .ok none
  | some s =>
    if s = "" then .ok none
    else match pyInt s with
      | some i => .ok (some i)
      | none => .error (.IntConvError s)

/-- The directive-parsing head of the `thebe` tag function: regex match,
`ValueError` with the expected syntax on failure, then the start/end/
language conversions. -/
def thebe_extract (markup : String) : Except ThebeError Directive :=
  match FORMAT_search markup with
  | none =>
    .error (.MalformedDirective ("Error processing input, expected syntax: " ++ SYNTAX))
  | some g => do
    let st ← convStart g.start
    let en ← convEnd g.«end»
    .ok ⟨g.src, st, en, g.language⟩

/-! ## Notebook data model, deep copy and Python slice semantics -/

/-- One notebook cell: type tag, source text, recorded outputs. -/
structure Cell where
  cell_type : String
  source : String
  outputs : List String
deriving DecidableEq, Repr

/-- A parsed notebook document: ordered cells plus document metadata. -/
structure NB where
  cells : List Cell
  metadata : List (String × String)
deriving DecidableEq, Repr

/-- Structural copy of a cell (what `copy.deepcopy` produces). -/
def Cell.deepcopy (c : Cell) : Cell :=
  ⟨c.cell_type, c.source, c.outputs⟩

/-- Structural copy of a notebook document (`nbc = deepcopy(nb)`). -/
def NB.deepcopy (nb : NB) : NB :=
  ⟨nb.cells.map Cell.deepcopy, nb.metadata⟩

/-- CPython's `slice(start, end).indices(n)` for step 1: resolve an
optional, possibly negative index against length `n`, clamping into
`[0, n]`.  `start` defaults to `0`, `end` to `n`. -/
def pySliceIndices (start «end» : Option Int) (n : Nat) : Nat × Nat :=
  let resolve : Option Int → Nat → Nat := fun oi dflt =>
    match oi with
    | none => dflt
    | some i => if i < 0 then (i + n).toNat else min i.toNat n
  (resolve start 0, resolve «end» n)

/-- Python sequence slicing `l[start:end]` (step 1). -/
def pySlice (start «end» : Option Int) (l : List α) : List α :=
  let p := pySliceIndices start «end» l.length
  (l.take p.2).drop p.1

/-- The auxiliary-resources mapping threaded through preprocessors. -/
abbrev Resources := List (String × String)

/-- Model of `SubCell.preprocess` from `thebe.py` (the `IPYTHON_VERSION >= 3`
branch; the module refuses to import on older versions): deep-copy the
notebook, replace the copy's cells by the `start:end` slice, return the
copy together with the untouched resources. -/
def SubCell.preprocess (start «end» : Option Int) (nb : NB) (resources : Resources) :
    NB × Resources :=
  let nbc := nb.deepcopy
  ({ nbc with cells := pySlice start «end» nbc.cells }, resources)

/-! ## Object-identity model of `SubCell.preprocess`

To express the frame claims ("the selector never mutates its input", "the
returned document is an independent copy: mutating it never affects the
original") we also model notebook objects living in a heap of object
slots; an address is an index into the heap. `preprocess` reads the
notebook at `a`, allocates a fresh slot holding the deep copy with the
sliced cell list, and returns the fresh address; the input slot is never
written. -/

/-- Heap version of `SubCell.preprocess`: returns the updated heap, the
address of the result document, and the (untouched) resources. If the
address is dangling nothing happens. -/
def SubCell.preprocessHeap (σ : List NB) (a : Nat) (start «end» : Option Int)
    (resources : Resources) : List NB × Nat × Resources :=
  match σ[a]? with
  | none => (σ, a, resources)
  | some nb =>
    let nbc := nb.deepcopy
    (σ ++ [{ nbc with cells := pySlice start «end» nbc.cells }], σ.length, resources)

/-- In-place mutation of the heap object at `a` by `f` (a no-op on a
dangling address). -/
def mutateHeap (σ : List NB) (a : Nat) (f : NB → NB) : List NB :=
  match σ[a]? with
  | none => σ
  | some nb => σ.set a (f nb)

/-! ## Syntax highlighter adapter -/

/-- Pygments `HtmlFormatter`, reduced to the one attribute the plugin
sets: the CSS class of the emitted wrapper. -/
structure HtmlFormatter where
  cssclass : String
deriving DecidableEq, Repr

/-- HTML-escape of plain text, used for unhighlighted fallback output. -/
def escapeHtml (s : String) : String :=
  String.mk ((s.data.map fun c =>
    if c = '&' then "&amp;".data
    else if c = '<' then "&lt;".data
    else if c = '>' then "&gt;".data
    else [c]).flatten)

/-- The highlighted-HTML wrapper a pygments formatter emits around a
rendered code block. -/
def formatWrap (f : HtmlFormatter) (body : String) : String :=
  "<div class=\"" ++ f.cssclass ++ "\"><pre>" ++ body ++ "</pre></div>"

/-- Modelled from the spec: `_pygments_highlight` (imported from
`IPython.nbconvert.filters.highlight`, not part of this repository).
Per the spec's `HighlightFailure` contract it looks up a lexer for
`language` and, when none exists, recovers by rendering the source as
unhighlighted plain text instead of failing; either way the output is
wrapped by the given formatter. `lexers` is the set of available lexer
names and `hlt language source` the token-level markup a found lexer
produces. -/
def pygments_highlight (lexers : List String) (hlt : String → String → String)
    (source : String) (fmt : HtmlFormatter) (language : String) : String :=
  if language ∈ lexers then formatWrap fmt (hlt language source)
  else formatWrap fmt (escapeHtml source)

/-- Model of `custom_highlighter` from `thebe.py`: formatter with
`cssclass='highlight-ipynb'`, falsy language (`None` or `''`) replaced by
the `'ipython'` default, then `_pygments_highlight`. -/
def custom_highlighter (lexers : List String) (hlt : String → String → String)
    (source : String) (language : Option String) : String :=
  let formatter : HtmlFormatter := ⟨"highlight-ipynb"⟩
  let language' := match language with
    | none => "ipython"
    | some s => if s = "" then "ipython" else s
  pygments_highlight lexers hlt source formatter language'

/-! ## The full `thebe` tag function -/

/-- Model of `os.path.join` for two components (POSIX rules, the subset exercised
by `os.path.join('content', nb_dir, src)`). -/
def os_path_join (a b : String) : String :=
  if (match b.data with | '/' :: _ => true | _ => false) then b
  else if a = "" then b
  else if (match a.data.getLast? with | some '/' => true | _ => false) then a ++ b
  else a ++ "/" ++ b

/-- The collaborators `thebe` consults: the `NOTEBOOK_DIR` config value,
the set of existing file-system paths (`os.path.exists`), the parsed
notebook a path loads to (`nbformat.reads` on the file contents), and the
highlighter collaborators of `pygments_highlight`. -/
structure ThebeCtx where
  NOTEBOOK_DIR : String
  fs : List String
  notebooks : String → NB
  lexers : List String
  hlt : String → String → String

/-- Modelled from the spec: the per-cell rendering step of nbconvert's
`HTMLExporter` (an external collaborator): narrative cells render their
source directly; code cells render their source through the registered
`highlight2html` filter (here `custom_highlighter` with the directive's
language) followed by their stored outputs verbatim. -/
def renderCell (ctx : ThebeCtx) (language : Option String) (c : Cell) : String :=
  if c.cell_type = "code" then
    custom_highlighter ctx.lexers ctx.hlt c.source language ++ String.join c.outputs
  else c.source

/-- Modelled from the spec: assembling the cell fragments of the selected
notebook into one HTML fragment (nbconvert `HTMLExporter.from_notebook_node`,
external). -/
def renderNB (ctx : ThebeCtx) (language : Option String) (nb : NB) : String :=
  String.join (nb.cells.map (renderCell ctx language))

/-! ## Grammar-side description of well-formed directive strings

These predicates restate the spec's informal grammar
`<path> [cells[<start>:<end>]] [language[<lang>]]` on character lists, so
that the parser can be proved to extract every directive of that shape
exactly. -/

/-- A (possibly empty) whitespace run. -/
def WsRun (w : List Char) : Prop := ∀ c ∈ w, isPySpace c = true

/-- A nonempty token without whitespace (the `<path>` of the grammar). -/
def NonWsTok (p : List Char) : Prop := p ≠ [] ∧ ∀ c ∈ p, isPySpace c = false

/-- A slice bound per the spec: absent (empty) or an optionally signed
decimal integer. -/
def SpecInt (s : List Char) : Prop :=
  s = [] ∨ ∃ ds, ds ≠ [] ∧ (∀ c ∈ ds, isDigitChar c = true) ∧ (s = ds ∨ s = '-' :: ds)

/-- A language identifier per the spec: characters from `[a-z0-9+\-]`. -/
def LangStr (lg : List Char) : Prop := ∀ c ∈ lg, isLangChar c = true

/-- The integer a signed digit string denotes. -/
def specIntVal (s : List Char) : Int :=
  match s with
  | [] => 0
  | c :: t => if c = '-' then -(digitsVal t : Int) else (digitsVal (c :: t) : Int)

/-- A `cells[s:e]` clause followed by the rest `R` of the input. -/
def cellsTok (s e R : List Char) : List Char :=
  'c' :: 'e' :: 'l' :: 'l' :: 's' :: '[' :: (s ++ ':' :: (e ++ ']' :: R))

/-- A `language[lg]` clause followed by the rest `R` of the input. -/
def langTok (lg R : List Char) : List Char :=
  'l' :: 'a' :: 'n' :: 'g' :: 'u' :: 'a' :: 'g' :: 'e' :: '[' :: (lg ++ ']' :: R)

/-- A directive string of the grammar's shape: optional leading
whitespace, the path, an optional cells clause, an optional language
clause (in that order, each preceded by its whitespace run), optional
trailing whitespace. -/
def assembleDirective (w0 p : List Char) (cl : Option (List Char × List Char × List Char))
    (lo : Option (List Char × List Char)) (w3 : List Char) : List Char :=
  w0 ++ p ++ (match cl, lo with
    | none, none => w3
    | some (w1, s, e), none => w1 ++ cellsTok s e w3
    | none, some (w2, lg) => w2 ++ langTok lg w3
    | some (w1, s, e), some (w2, lg) => w1 ++ cellsTok s e (w2 ++ langTok lg w3))

/-- The Directive the spec's grammar semantics assigns to an assembled
directive string: the path, the slice bounds with their defaults (0 and
unbounded), and the language capture when present. Stated from the spec's
words, to be compared with what `thebe_extract` computes. -/
def specExtract (p : List Char) (cl : Option (List Char × List Char × List Char))
    (lo : Option (List Char × List Char)) : Directive :=
  { src := String.mk p
    start := match cl with
      | none => 0
      | some (_, s, _) => if s = [] then 0 else specIntVal s
    «end» := match cl with
      | none => none
      | some (_, _, e) => if e = [] then none else some (specIntVal e)
    language := match lo with
      | none => none
      | some (_, lg) => some (String.mk lg) }

/-- The `thebe` tag function: parse the directive, resolve
`content/NOTEBOOK_DIR/src`, fail with the not-found `ValueError` when the
path does not exist, otherwise load the notebook, apply `SubCell` with
the extracted range and render. -/
def thebe (ctx : ThebeCtx) (markup : String) : Except ThebeError String :=
  match thebe_extract markup with
  | .error e => .error e
  | .ok d =>
    let nb_path := os_path_join (os_path_join "content" ctx.NOTEBOOK_DIR) d.src
    if nb_path ∈ ctx.fs then
      let nb := ctx.notebooks nb_path
      let nbc := (SubCell.preprocess (some d.start) d.«end» nb []).1
      .ok (renderNB ctx d.language nbc)
    else
      .error (.NotebookNotFound ("File " ++ nb_path ++ " could not be found"))

/-- Ten distinct code cells, the concrete notebook of the C2 witnesses. -/
def nbTen : NB :=
  ⟨(List.range 10).map (fun i => ⟨"code", toString i, []⟩), [("name", "ten")]⟩

/-- A small concrete notebook with one code and one narrative cell. -/
def nbTwo : NB :=
  ⟨[⟨"code", "print(1)", ["1"]⟩, ⟨"markdown", "hello", []⟩], [("kernelspec", "python")]⟩

/-- A context whose file system is empty: no notebook path exists. -/
def emptyCtx : ThebeCtx :=
  ⟨"notebooks", [], fun _ => ⟨[], []⟩, [], fun _ s => s⟩

/-! ## Basic facts about the data model -/

theorem cell_deepcopy_eq (c : Cell) : c.deepcopy = c := rfl

theorem nb_deepcopy_eq (nb : NB) : nb.deepcopy = nb := by
  show NB.mk (nb.cells.map Cell.deepcopy) nb.metadata = nb
  rw [show Cell.deepcopy = id from funext fun c => rfl, List.map_id]

/-! ## Parser correctness on grammar-shaped strings -/

theorem dropWhile_ws_of_run {w : List Char} (hw : WsRun w) :
    w.dropWhile isPySpace = [] :=
  List.dropWhile_eq_nil_iff.mpr hw

theorem takeWhile_nonws_of_run {w : List Char} (hw : WsRun w) :
    w.takeWhile (fun c => !isPySpace c) = [] := by
  cases w with
  | nil => rfl
  | cons c t =>
    exact List.takeWhile_cons_of_neg (by simp [hw c (List.mem_cons_self c t)])

theorem takeWhile_nonws_append {w X : List Char} (hne : w ≠ []) (hw : WsRun w) :
    (w ++ X).takeWhile (fun c => !isPySpace c) = [] := by
  cases w with
  | nil => exact absurd rfl hne
  | cons c t =>
    exact List.takeWhile_cons_of_neg (by simp [hw c (List.mem_cons_self c t)])

theorem takeSignedDigits_spec {s : List Char} (c : Char) (r : List Char)
    (hs : SpecInt s) (hc : c ≠ '-') (hcd : isDigitChar c = false) :
    takeSignedDigits (s ++ c :: r) = (String.mk s, c :: r) := by
  have htw : (c :: r).takeWhile isDigitChar = [] :=
    List.takeWhile_cons_of_neg (by simp [hcd])
  have hdw : (c :: r).dropWhile isDigitChar = c :: r :=
    List.dropWhile_cons_of_neg (by simp [hcd])
  rcases hs with rfl | ⟨ds, hne, hdig, hcase⟩
  · simp only [List.nil_append, takeSignedDigits]
    rw [if_neg hc, htw, hdw]
  · rcases hcase with rfl | rfl
    · cases s with
      | nil => exact absurd rfl hne
      | cons c₀ t =>
        have hc₀ : isDigitChar c₀ = true := hdig c₀ (List.mem_cons_self c₀ t)
        have hc₀ne : c₀ ≠ '-' := by
          intro h; rw [h] at hc₀; exact absurd hc₀ (by decide)
        rw [List.cons_append]
        simp only [takeSignedDigits]
        rw [if_neg hc₀ne, ← List.cons_append,
          List.takeWhile_append_of_pos hdig, htw, List.append_nil,
          List.dropWhile_append_of_pos hdig, hdw]
    · rw [List.cons_append]
      simp only [takeSignedDigits]
      rw [if_pos trivial, List.takeWhile_append_of_pos hdig, htw, List.append_nil,
        List.dropWhile_append_of_pos hdig, hdw]

theorem parseCells_cellsTok {s e : List Char} (R : List Char)
    (hs : SpecInt s) (he : SpecInt e) :
    parseCells (cellsTok s e R) = some (String.mk s, String.mk e, R) := by
  have h1 := takeSignedDigits_spec ':' (e ++ ']' :: R) hs (by decide) (by decide)
  have h2 := takeSignedDigits_spec ']' R he (by decide) (by decide)
  simp only [cellsTok, parseCells, h1, h2]

theorem parseLanguage_langTok {lg : List Char} (R : List Char) (hlg : LangStr lg) :
    parseLanguage (langTok lg R) = some (String.mk lg, R) := by
  have htw : (']' :: R).takeWhile isLangChar = [] :=
    List.takeWhile_cons_of_neg (by decide)
  have hdw : (']' :: R).dropWhile isLangChar = ']' :: R :=
    List.dropWhile_cons_of_neg (by decide)
  simp only [langTok, parseLanguage, List.takeWhile_append_of_pos hlg,
    List.dropWhile_append_of_pos hlg, htw, hdw, List.append_nil]

theorem parseCells_langTok (lg R : List Char) : parseCells (langTok lg R) = none := rfl

theorem parseCells_nil : parseCells [] = none := rfl

theorem parseLanguage_nil : parseLanguage [] = none := rfl

theorem formatAux_split {w0 p T : List Char} (hw0 : WsRun w0) (hp : NonWsTok p)
    (hT : T.takeWhile (fun c => !isPySpace c) = []) :
    formatAux (w0 ++ p ++ T) = formatRest p (T.dropWhile isPySpace) := by
  obtain ⟨hpne, hpnw⟩ := hp
  have hpall : ∀ c ∈ p, (!isPySpace c) = true := by
    intro c hc; simp [hpnw c hc]
  have hl1 : (w0 ++ p ++ T).dropWhile isPySpace = p ++ T := by
    rw [List.append_assoc, List.dropWhile_append_of_pos hw0]
    cases p with
    | nil => exact absurd rfl hpne
    | cons c p' =>
      rw [List.cons_append]
      exact List.dropWhile_cons_of_neg (by simp [hpnw c (List.mem_cons_self c p')])
  have hsrc : (p ++ T).takeWhile (fun c => !isPySpace c) = p := by
    rw [List.takeWhile_append_of_pos hpall, hT, List.append_nil]
  have hrest : (p ++ T).dropWhile (fun c => !isPySpace c) = T := by
    rw [List.dropWhile_append_of_pos hpall]
    cases T with
    | nil => rfl
    | cons c t =>
      by_cases hb : isPySpace c = true
      · exact List.dropWhile_cons_of_neg (by simp [hb])
      · exfalso
        rw [List.takeWhile_cons_of_pos (by simp [hb])] at hT
        exact absurd hT (by simp)
  unfold formatAux
  rw [hl1, hsrc, hrest, if_neg hpne]

theorem dropWhile_ws_cellsTok {w : List Char} (s e R : List Char) (hw : WsRun w) :
    (w ++ cellsTok s e R).dropWhile isPySpace = cellsTok s e R := by
  rw [List.dropWhile_append_of_pos hw]
  exact List.dropWhile_cons_of_neg (by decide)

theorem dropWhile_ws_langTok {w : List Char} (lg R : List Char) (hw : WsRun w) :
    (w ++ langTok lg R).dropWhile isPySpace = langTok lg R := by
  rw [List.dropWhile_append_of_pos hw]
  exact List.dropWhile_cons_of_neg (by decide)

theorem formatRest_empty (p : List Char) :
    formatRest p [] = some ⟨String.mk p, none, none, none⟩ := rfl

theorem formatRest_cells (p s e w2 : List Char) (hs : SpecInt s) (he : SpecInt e)
    (hw2 : WsRun w2) :
    formatRest p (cellsTok s e w2) =
      some ⟨String.mk p, some (String.mk s), some (String.mk e), none⟩ := by
  simp only [formatRest, parseCells_cellsTok w2 hs he, dropWhile_ws_of_run hw2,
    parseLanguage_nil, if_pos]

theorem formatRest_cells_lang (p s e w2 lg w3 : List Char)
    (hs : SpecInt s) (he : SpecInt e) (hw2 : WsRun w2) (hlg : LangStr lg) (hw3 : WsRun w3) :
    formatRest p (cellsTok s e (w2 ++ langTok lg w3)) =
      some ⟨String.mk p, some (String.mk s), some (String.mk e), some (String.mk lg)⟩ := by
  simp only [formatRest, parseCells_cellsTok _ hs he, dropWhile_ws_langTok lg w3 hw2,
    parseLanguage_langTok w3 hlg, dropWhile_ws_of_run hw3, if_pos]

theorem formatRest_lang (p lg R : List Char) (hlg : LangStr lg) :
    formatRest p (langTok lg R) =
      if R.dropWhile isPySpace = [] then
        some ⟨String.mk p, none, none, some (String.mk lg)⟩
      else none := by
  simp only [formatRest, parseCells_langTok, parseLanguage_langTok R hlg]

theorem mk_ne_empty {s : List Char} (h : s ≠ []) : String.mk s ≠ "" := by
  intro he
  exact h (by simpa using congrArg String.data he)

theorem pyInt_spec {ds : List Char} (hne : ds ≠ []) (hdig : ∀ c ∈ ds, isDigitChar c = true) :
    pyInt (String.mk ds) = some (specIntVal ds) ∧
    pyInt (String.mk ('-' :: ds)) = some (specIntVal ('-' :: ds)) := by
  constructor
  · cases ds with
    | nil => exact absurd rfl hne
    | cons c t =>
      have hc : isDigitChar c = true := hdig c (List.mem_cons_self c t)
      have hcne : c ≠ '-' := by
        intro h; rw [h] at hc; exact absurd hc (by decide)
      simp only [pyInt, specIntVal]
      rw [if_neg hcne, if_pos (List.all_eq_true.mpr hdig), if_neg hcne]
  · simp only [pyInt, specIntVal]
    rw [if_pos trivial, if_neg hne, if_pos (List.all_eq_true.mpr hdig), if_pos trivial]

theorem convStart_spec {s : List Char} (hs : SpecInt s) :
    convStart (some (String.mk s)) = .ok (if s = [] then 0 else specIntVal s) := by
  rcases hs with rfl | ⟨ds, hne, hdig, hcase⟩
  · simp [convStart]
  · have hsne : s ≠ [] := by
      rcases hcase with rfl | rfl
      · exact hne
      · simp
    have hpy : pyInt (String.mk s) = some (specIntVal s) := by
      rcases hcase with rfl | rfl
      · exact (pyInt_spec hne hdig).1
      · exact (pyInt_spec hne hdig).2
    simp only [convStart]
    rw [if_neg (mk_ne_empty hsne), hpy, if_neg hsne]

theorem convEnd_spec {s : List Char} (hs : SpecInt s) :
    convEnd (some (String.mk s)) =
      .ok (if s = [] then none else some (specIntVal s)) := by
  rcases hs with rfl | ⟨ds, hne, hdig, hcase⟩
  · simp [convEnd]
  · have hsne : s ≠ [] := by
      rcases hcase with rfl | rfl
      · exact hne
      · simp
    have hpy : pyInt (String.mk s) = some (specIntVal s) := by
      rcases hcase with rfl | rfl
      · exact (pyInt_spec hne hdig).1
      · exact (pyInt_spec hne hdig).2
    simp only [convEnd]
    rw [if_neg (mk_ne_empty hsne), hpy, if_neg hsne]

/-- The `FORMAT` regex matches every grammar-shaped directive string and
captures exactly its components. -/
theorem FORMAT_search_assembled (w0 p w3 : List Char)
    (cl : Option (List Char × List Char × List Char)) (lo : Option (List Char × List Char))
    (hw0 : WsRun w0) (hp : NonWsTok p) (hw3 : WsRun w3)
    (hcl : ∀ x ∈ cl, (x.1 ≠ [] ∧ WsRun x.1) ∧ SpecInt x.2.1 ∧ SpecInt x.2.2)
    (hlo : ∀ y ∈ lo, (y.1 ≠ [] ∧ WsRun y.1) ∧ LangStr y.2) :
    FORMAT_search (String.mk (assembleDirective w0 p cl lo w3)) =
      some ⟨String.mk p,
        (cl.map fun x => String.mk x.2.1), (cl.map fun x => String.mk x.2.2),
        (lo.map fun y => String.mk y.2)⟩ := by
  show formatAux (assembleDirective w0 p cl lo w3) = _
  match cl, lo with
  | none, none =>
    show formatAux (w0 ++ p ++ w3) = _
    rw [formatAux_split hw0 hp (takeWhile_nonws_of_run hw3), dropWhile_ws_of_run hw3,
      formatRest_empty]
    rfl
  | some (w1, s, e), none =>
    obtain ⟨⟨hw1ne, hw1⟩, hs, he⟩ := hcl (w1, s, e) rfl
    show formatAux (w0 ++ p ++ (w1 ++ cellsTok s e w3)) = _
    rw [formatAux_split hw0 hp (takeWhile_nonws_append hw1ne hw1),
      dropWhile_ws_cellsTok s e w3 hw1, formatRest_cells p s e w3 hs he hw3]
    rfl
  | none, some (w2, lg) =>
    obtain ⟨⟨hw2ne, hw2⟩, hlg⟩ := hlo (w2, lg) rfl
    show formatAux (w0 ++ p ++ (w2 ++ langTok lg w3)) = _
    rw [formatAux_split hw0 hp (takeWhile_nonws_append hw2ne hw2),
      dropWhile_ws_langTok lg w3 hw2, formatRest_lang p lg w3 hlg,
      if_pos (dropWhile_ws_of_run hw3)]
    rfl
  | some (w1, s, e), some (w2, lg) =>
    obtain ⟨⟨hw1ne, hw1⟩, hs, he⟩ := hcl (w1, s, e) rfl
    obtain ⟨⟨_, hw2⟩, hlg⟩ := hlo (w2, lg) rfl
    show formatAux (w0 ++ p ++ (w1 ++ cellsTok s e (w2 ++ langTok lg w3))) = _
    rw [formatAux_split hw0 hp (takeWhile_nonws_append hw1ne hw1),
      dropWhile_ws_cellsTok s e _ hw1,
      formatRest_cells_lang p s e w2 lg w3 hs he hw2 hlg hw3]
    rfl

/-- Directive extraction on every grammar-shaped string: the parser
produces exactly the spec-side directive. -/
theorem thebe_extract_assembled (w0 p w3 : List Char)
    (cl : Option (List Char × List Char × List Char)) (lo : Option (List Char × List Char))
    (hw0 : WsRun w0) (hp : NonWsTok p) (hw3 : WsRun w3)
    (hcl : ∀ x ∈ cl, (x.1 ≠ [] ∧ WsRun x.1) ∧ SpecInt x.2.1 ∧ SpecInt x.2.2)
    (hlo : ∀ y ∈ lo, (y.1 ≠ [] ∧ WsRun y.1) ∧ LangStr y.2) :
    thebe_extract (String.mk (assembleDirective w0 p cl lo w3)) =
      .ok (specExtract p cl lo) := by
  have hFS := FORMAT_search_assembled w0 p w3 cl lo hw0 hp hw3 hcl hlo
  match cl, lo with
  | none, none =>
    simp [thebe_extract, hFS, convStart, convEnd, specExtract, bind, Except.bind]
  | some (w1, s, e), none =>
    obtain ⟨_, hs, he⟩ := hcl (w1, s, e) rfl
    simp only [thebe_extract, hFS, Option.map, bind, Except.bind]
    rw [convStart_spec hs, convEnd_spec he]
    simp [specExtract]
  | none, some (w2, lg) =>
    simp [thebe_extract, hFS, convStart, convEnd, specExtract, bind, Except.bind]
  | some (w1, s, e), some (w2, lg) =>
    obtain ⟨_, hs, he⟩ := hcl (w1, s, e) rfl
    simp only [thebe_extract, hFS, Option.map, bind, Except.bind]
    rw [convStart_spec hs, convEnd_spec he]
    simp [specExtract]

theorem optAll_none {α : Type} {P : α → Prop} : ∀ x ∈ (none : Option α), P x := by
  intro x hx
  simp at hx

theorem optAll_some {α : Type} {P : α → Prop} {v : α} (h : P v) : ∀ x ∈ some v, P x := by
  intro x hx
  obtain rfl := Option.mem_some_iff.mp hx
  exact h

/-! ## Claim theorems -/

/-- C1: for every directive string matching the grammar (optional
whitespace, path token, optional whitespace-separated `cells[start:end]`
clause with optionally-signed decimal bounds, optional
whitespace-separated `language[lang]` clause, optional trailing
whitespace), the directive parser extracts (sourcePath, cellStart,
cellEnd, language) exactly, with defaults start = 0, end = unbounded
(`none`), language unset (`none`) when the optional clauses are absent. -/
theorem claim_C1 (w0 p w3 : List Char)
    (cl : Option (List Char × List Char × List Char)) (lo : Option (List Char × List Char))
    (hw0 : WsRun w0) (hp : NonWsTok p) (hw3 : WsRun w3)
    (hcl : ∀ x ∈ cl, (x.1 ≠ [] ∧ WsRun x.1) ∧ SpecInt x.2.1 ∧ SpecInt x.2.2)
    (hlo : ∀ y ∈ lo, (y.1 ≠ [] ∧ WsRun y.1) ∧ LangStr y.2) :
    thebe_extract (String.mk (assembleDirective w0 p cl lo w3)) =
      .ok (specExtract p cl lo) :=
  thebe_extract_assembled w0 p w3 cl lo hw0 hp hw3 hcl hlo

theorem claim_C1_witness :
    thebe_extract "demo.ipynb" = .ok ⟨"demo.ipynb", 0, none, none⟩ ∧
    thebe_extract "demo.ipynb cells[2:5]" = .ok ⟨"demo.ipynb", 2, some 5, none⟩ ∧
    thebe_extract "demo.ipynb cells[:-1]" = .ok ⟨"demo.ipynb", 0, some (-1), none⟩ ∧
    thebe_extract "demo.ipynb language[python]" =
      .ok ⟨"demo.ipynb", 0, none, some "python"⟩ := by
  have hp : NonWsTok "demo.ipynb".data := ⟨by decide, by decide⟩
  have hw : WsRun [] := by intro c hc; cases hc
  have hw1 : ([' '] : List Char) ≠ [] ∧ ∀ c ∈ [' '], isPySpace c = true :=
    ⟨by decide, by decide⟩
  refine ⟨?_, ?_, ?_, ?_⟩
  · have h := claim_C1 [] "demo.ipynb".data [] none none hw hp hw optAll_none optAll_none
    have e1 : String.mk (assembleDirective [] "demo.ipynb".data none none []) =
        "demo.ipynb" := by decide
    have e2 : specExtract "demo.ipynb".data none none =
        ⟨"demo.ipynb", 0, none, none⟩ := by decide
    rw [e1, e2] at h
    exact h
  · have h := claim_C1 [] "demo.ipynb".data [] (some ([' '], ['2'], ['5'])) none hw hp hw
      (optAll_some ⟨hw1, by right; exact ⟨['2'], by decide, by decide, Or.inl rfl⟩,
        by right; exact ⟨['5'], by decide, by decide, Or.inl rfl⟩⟩) optAll_none
    have e1 : String.mk (assembleDirective [] "demo.ipynb".data
        (some ([' '], ['2'], ['5'])) none []) = "demo.ipynb cells[2:5]" := by decide
    have e2 : specExtract "demo.ipynb".data (some ([' '], ['2'], ['5'])) none =
        ⟨"demo.ipynb", 2, some 5, none⟩ := by decide
    rw [e1, e2] at h
    exact h
  · have h := claim_C1 [] "demo.ipynb".data [] (some ([' '], [], ['-', '1'])) none hw hp hw
      (optAll_some ⟨hw1, Or.inl rfl,
        by right; exact ⟨['1'], by decide, by decide, Or.inr rfl⟩⟩) optAll_none
    have e1 : String.mk (assembleDirective [] "demo.ipynb".data
        (some ([' '], [], ['-', '1'])) none []) = "demo.ipynb cells[:-1]" := by decide
    have e2 : specExtract "demo.ipynb".data (some ([' '], [], ['-', '1'])) none =
        ⟨"demo.ipynb", 0, some (-1), none⟩ := by decide
    rw [e1, e2] at h
    exact h
  · have h := claim_C1 [] "demo.ipynb".data [] none (some ([' '], "python".data)) hw hp hw
      optAll_none
      (optAll_some ⟨hw1, (by decide : ∀ c ∈ "python".data, isLangChar c = true)⟩)
    have e1 : String.mk (assembleDirective [] "demo.ipynb".data none
        (some ([' '], "python".data)) []) = "demo.ipynb language[python]" := by decide
    have e2 : specExtract "demo.ipynb".data none (some ([' '], "python".data)) =
        ⟨"demo.ipynb", 0, none, some "python"⟩ := by decide
    rw [e1, e2] at h
    exact h

theorem pySliceIndices_le (st en : Option Int) (n : Nat) :
    (pySliceIndices st en n).1 ≤ n ∧ (pySliceIndices st en n).2 ≤ n := by
  unfold pySliceIndices
  constructor
  · cases st with
    | none => exact Nat.zero_le n
    | some i =>
      by_cases h : i < 0
      · simp only [if_pos h]
        omega
      · simp only [if_neg h]
        exact Nat.min_le_right _ _
  · cases en with
    | none => exact Nat.le_refl n
    | some i =>
      by_cases h : i < 0
      · simp only [if_pos h]
        omega
      · simp only [if_neg h]
        exact Nat.min_le_right _ _

theorem preprocess_cells_eq (nb : NB) (res : Resources) (st en : Option Int) (lo hi : Nat)
    (h : pySliceIndices st en nb.cells.length = (lo, hi)) :
    (SubCell.preprocess st en nb res).1.cells = (nb.cells.take hi).drop lo := by
  simp only [SubCell.preprocess, nb_deepcopy_eq, pySlice, h]

/-- C2 (amended): for every notebook and optional, possibly negative
(start, end), the selected cell count equals
`len(range(*slice(start,end).indices(N)))` (= `hi - lo` for the resolved
clamped indices), the selected cells are the corresponding source cells
in original order, resolved indices are clamped into `[0, N]`, a resolved
start ≥ resolved end yields an empty sequence (the raw comparison
start ≥ end does not — see the counterexample), `[0:0]` yields the empty
sequence, and `[-2:]` yields the last two cells. -/
theorem claim_C2_amended (nb : NB) (res : Resources) (st en : Option Int) (lo hi : Nat)
    (h : pySliceIndices st en nb.cells.length = (lo, hi)) :
    (SubCell.preprocess st en nb res).1.cells.length = hi - lo ∧
    (∀ i, i < hi - lo →
      (SubCell.preprocess st en nb res).1.cells[i]? = nb.cells[lo + i]?) ∧
    lo ≤ nb.cells.length ∧ hi ≤ nb.cells.length ∧
    (hi ≤ lo → (SubCell.preprocess st en nb res).1.cells = []) ∧
    (st = some 0 → en = some 0 → (SubCell.preprocess st en nb res).1.cells = []) ∧
    (st = some (-2) → en = none →
      (SubCell.preprocess st en nb res).1.cells = nb.cells.drop (nb.cells.length - 2)) := by
  have hbounds := pySliceIndices_le st en nb.cells.length
  rw [h] at hbounds
  obtain ⟨hlo, hhi⟩ := hbounds
  have hcells := preprocess_cells_eq nb res st en lo hi h
  have hempty : hi ≤ lo → (SubCell.preprocess st en nb res).1.cells = [] := by
    intro hle
    rw [hcells]
    apply List.drop_eq_nil_of_le
    rw [List.length_take]
    omega
  refine ⟨?_, ?_, hlo, hhi, hempty, ?_, ?_⟩
  · rw [hcells, List.length_drop, List.length_take]
    omega
  · intro i hilt
    rw [hcells, List.getElem?_drop, List.getElem?_take_of_lt (by omega)]
  · intro h0 h0'
    subst h0; subst h0'
    apply hempty
    have hcalc : pySliceIndices (some 0) (some 0) nb.cells.length = (0, 0) := by
      simp [pySliceIndices]
    rw [hcalc] at h
    simp only [Prod.mk.injEq] at h
    omega
  · intro hm2 hnone
    subst hm2; subst hnone
    have hcalc : pySliceIndices (some (-2)) none nb.cells.length =
        (((-2 : Int) + nb.cells.length).toNat, nb.cells.length) := by
      simp [pySliceIndices]
    rw [hcalc] at h
    simp only [Prod.mk.injEq] at h
    obtain ⟨h1, h2⟩ := h
    rw [hcells, ← h2, List.take_length, ← h1]
    congr 1
    omega

/-- C2 counterexample: the claim's subclause "start ≥ end yields an empty
cell sequence" fails on raw mixed-sign bounds: on a 10-cell notebook,
start = 2 ≥ end = -5, yet the slice `[2:-5]` holds 3 cells. -/
theorem claim_C2_counterexample :
    (2 : Int) ≥ -5 ∧
    (SubCell.preprocess (some 2) (some (-5)) nbTen []).1.cells.length = 3 := by
  exact ⟨by decide, by decide⟩

theorem claim_C2_witness :
    pySliceIndices (some (-2)) none nbTen.cells.length = (8, 10) ∧
    (SubCell.preprocess (some (-2)) none nbTen []).1.cells =
      nbTen.cells.drop (nbTen.cells.length - 2) := by
  have hh : pySliceIndices (some (-2)) none nbTen.cells.length = (8, 10) := by decide
  exact ⟨hh, (claim_C2_amended nbTen [] (some (-2)) none 8 10 hh).2.2.2.2.2.2 rfl rfl⟩

theorem extract_malformed (markup : String) (h : FORMAT_search markup = none) :
    thebe_extract markup =
      .error (.MalformedDirective ("Error processing input, expected syntax: " ++ SYNTAX)) ∧
    ∀ ctx : ThebeCtx, thebe ctx markup =
      .error (.MalformedDirective ("Error processing input, expected syntax: " ++ SYNTAX)) := by
  have h1 : thebe_extract markup =
      .error (.MalformedDirective ("Error processing input, expected syntax: " ++ SYNTAX)) := by
    simp [thebe_extract, h]
  exact ⟨h1, fun ctx => by simp [thebe, h1]⟩

/-- C3 (amended): every directive string the `FORMAT` grammar rejects —
including `"demo.ipynb cells[2:]extra"` — makes the parser fail with
`MalformedDirective` carrying the expected-syntax string, and no
directive is produced (the whole tag function returns the same error).
However `"cells[2:5]"` is NOT rejected: it matches the grammar as a bare
source path — see the counterexample. -/
theorem claim_C3_amended (markup : String) (h : FORMAT_search markup = none) :
    thebe_extract markup =
      .error (.MalformedDirective ("Error processing input, expected syntax: " ++ SYNTAX)) ∧
    ∀ ctx : ThebeCtx, thebe ctx markup =
      .error (.MalformedDirective ("Error processing input, expected syntax: " ++ SYNTAX)) :=
  extract_malformed markup h

/-- C3 counterexample: `"cells[2:5]"` (no path) does NOT fail: the
greedy `\S+` of `FORMAT` matches the whole token as the source path, so
the parser succeeds and produces a directive. -/
theorem claim_C3_counterexample :
    FORMAT_search "cells[2:5]" = some ⟨"cells[2:5]", none, none, none⟩ ∧
    thebe_extract "cells[2:5]" = .ok ⟨"cells[2:5]", 0, none, none⟩ :=
  ⟨rfl, rfl⟩

theorem claim_C3_witness :
    FORMAT_search "demo.ipynb cells[2:]extra" = none ∧
    thebe_extract "demo.ipynb cells[2:]extra" =
      .error (.MalformedDirective ("Error processing input, expected syntax: " ++ SYNTAX)) := by
  have h : FORMAT_search "demo.ipynb cells[2:]extra" = none := rfl
  exact ⟨h, (claim_C3_amended "demo.ipynb cells[2:]extra" h).1⟩

/-- C4 (amended): the two bracketed clauses are order-DEPENDENT. The
grammar accepts them only in the order `cells[...]` then `language[...]`:
`<path> cells[s:e] language[l]` parses and extracts both clauses, while
the reversed `<path> language[l] cells[s:e]` fails to match and the
parser raises `MalformedDirective`. -/
theorem claim_C4_amended (w0 p w1 s e w2 lg w3 : List Char)
    (hw0 : WsRun w0) (hp : NonWsTok p)
    (hw1ne : w1 ≠ []) (hw1 : WsRun w1) (hs : SpecInt s) (he : SpecInt e)
    (hw2ne : w2 ≠ []) (hw2 : WsRun w2) (hlg : LangStr lg) (hw3 : WsRun w3) :
    thebe_extract (String.mk (assembleDirective w0 p (some (w1, s, e)) (some (w2, lg)) w3)) =
      .ok (specExtract p (some (w1, s, e)) (some (w2, lg))) ∧
    FORMAT_search (String.mk (w0 ++ p ++ (w1 ++ langTok lg (w2 ++ cellsTok s e w3)))) = none ∧
    thebe_extract (String.mk (w0 ++ p ++ (w1 ++ langTok lg (w2 ++ cellsTok s e w3)))) =
      .error (.MalformedDirective ("Error processing input, expected syntax: " ++ SYNTAX)) := by
  have hfwd := thebe_extract_assembled w0 p w3 (some (w1, s, e)) (some (w2, lg))
    hw0 hp hw3 (optAll_some ⟨⟨hw1ne, hw1⟩, hs, he⟩) (optAll_some ⟨⟨hw2ne, hw2⟩, hlg⟩)
  have hrev : FORMAT_search
      (String.mk (w0 ++ p ++ (w1 ++ langTok lg (w2 ++ cellsTok s e w3)))) = none := by
    show formatAux (w0 ++ p ++ (w1 ++ langTok lg (w2 ++ cellsTok s e w3))) = none
    rw [formatAux_split hw0 hp (takeWhile_nonws_append hw1ne hw1),
      dropWhile_ws_langTok _ _ hw1, formatRest_lang p lg _ hlg, if_neg ?_]
    rw [dropWhile_ws_cellsTok s e w3 hw2]
    simp [cellsTok]
  exact ⟨hfwd, hrev, (extract_malformed _ hrev).1⟩

/-- C4 counterexample: the clauses are not order-independent. The order
`cells` then `language` parses, the reversed order raises
`MalformedDirective`. -/
theorem claim_C4_counterexample :
    thebe_extract "demo.ipynb cells[2:5] language[python]" =
      .ok ⟨"demo.ipynb", 2, some 5, some "python"⟩ ∧
    thebe_extract "demo.ipynb language[python] cells[2:5]" =
      .error (.MalformedDirective ("Error processing input, expected syntax: " ++ SYNTAX)) :=
  ⟨rfl, rfl⟩

theorem claim_C4_witness :
    thebe_extract (String.mk (assembleDirective [] "demo.ipynb".data
      (some ([' '], ['2'], ['5'])) (some ([' '], "python".data)) [])) =
      .ok ⟨"demo.ipynb", 2, some 5, some "python"⟩ ∧
    FORMAT_search (String.mk ([] ++ "demo.ipynb".data ++
      ([' '] ++ langTok "python".data ([' '] ++ cellsTok ['2'] ['5'] [])))) = none := by
  have hwnil : WsRun [] := fun c hc => absurd hc (List.not_mem_nil c)
  have hw1 : WsRun [' '] := (by decide : ∀ c ∈ [' '], isPySpace c = true)
  have h := claim_C4_amended [] "demo.ipynb".data [' '] ['2'] ['5'] [' '] "python".data []
    hwnil ⟨by decide, by decide⟩ (by decide) hw1
    (Or.inr ⟨['2'], by decide, by decide, Or.inl rfl⟩)
    (Or.inr ⟨['5'], by decide, by decide, Or.inl rfl⟩)
    (by decide) hw1
    ((by decide : ∀ c ∈ "python".data, isLangChar c = true)) hwnil
  obtain ⟨h1, h2, _⟩ := h
  have e2 : specExtract "demo.ipynb".data (some ([' '], ['2'], ['5']))
      (some ([' '], "python".data)) = ⟨"demo.ipynb", 2, some 5, some "python"⟩ := by decide
  rw [e2] at h1
  exact ⟨h1, h2⟩

/-- C5: the cell-range selector never mutates its input. In the heap
model: after `preprocessHeap` the input address still holds the original
document (same cells and count), the returned document lives at a fresh
distinct address, mutating the returned document leaves the original
unchanged, and the result document keeps all non-cell metadata while its
cells are the selected slice. -/
theorem claim_C5 (σ : List NB) (a : Nat) (st en : Option Int) (res : Resources) (nb : NB)
    (h : σ[a]? = some nb) :
    ((SubCell.preprocessHeap σ a st en res).1[a]? = some nb) ∧
    ((SubCell.preprocessHeap σ a st en res).2.1 ≠ a) ∧
    (∀ f : NB → NB,
      (mutateHeap (SubCell.preprocessHeap σ a st en res).1
        (SubCell.preprocessHeap σ a st en res).2.1 f)[a]? = some nb) ∧
    ((SubCell.preprocessHeap σ a st en res).1[(SubCell.preprocessHeap σ a st en res).2.1]? =
      some ⟨pySlice st en nb.cells, nb.metadata⟩) := by
  obtain ⟨halen, -⟩ := List.getElem?_eq_some.mp h
  have hne : σ.length ≠ a := by omega
  have hx : { nb.deepcopy with cells := pySlice st en nb.deepcopy.cells } =
      (⟨pySlice st en nb.cells, nb.metadata⟩ : NB) := by
    rw [nb_deepcopy_eq]
  simp only [SubCell.preprocessHeap, h, hx]
  have h1 : (σ ++ [(⟨pySlice st en nb.cells, nb.metadata⟩ : NB)])[a]? = some nb := by
    rw [List.getElem?_append_left halen]
    exact h
  have h2 : (σ ++ [(⟨pySlice st en nb.cells, nb.metadata⟩ : NB)])[σ.length]? =
      some ⟨pySlice st en nb.cells, nb.metadata⟩ :=
    List.getElem?_concat_length σ _
  refine ⟨h1, hne, ?_, h2⟩
  intro f
  simp only [mutateHeap, h2]
  rw [List.getElem?_set_ne hne]
  exact h1

theorem claim_C5_witness :
    (([nbTwo] : List NB)[0]? = some nbTwo) ∧
    ((SubCell.preprocessHeap [nbTwo] 0 (some 0) (some 1) []).1[0]? = some nbTwo) ∧
    ((mutateHeap (SubCell.preprocessHeap [nbTwo] 0 (some 0) (some 1) []).1
      (SubCell.preprocessHeap [nbTwo] 0 (some 0) (some 1) []).2.1
      (fun x => { x with cells := [] }))[0]? = some nbTwo) := by
  have h : ([nbTwo] : List NB)[0]? = some nbTwo := rfl
  have hc := claim_C5 [nbTwo] 0 (some 0) (some 1) [] nbTwo h
  exact ⟨h, hc.1, hc.2.2.1 _⟩

theorem pySlice_full (l : List α) : pySlice (some 0) none l = l := by
  simp [pySlice, pySliceIndices, List.take_length]

/-- C6: round trip: an explicit full range `cells[:]` parses to the same
(start, end) extraction as omitting the clause — both give (0, None) —
and slicing with that pair is the identity on the cell sequence (the
selector returns the document unchanged), so both directives render the
same cell content. -/
theorem claim_C6 :
    (∀ (nb : NB) (res : Resources), SubCell.preprocess (some 0) none nb res = (nb, res)) ∧
    (∀ w0 p w1 w3 : List Char, WsRun w0 → NonWsTok p → w1 ≠ [] → WsRun w1 → WsRun w3 →
      thebe_extract (String.mk (assembleDirective w0 p (some (w1, [], [])) none w3)) =
        thebe_extract (String.mk (assembleDirective w0 p none none w3)) ∧
      thebe_extract (String.mk (assembleDirective w0 p (some (w1, [], [])) none w3)) =
        .ok ⟨String.mk p, 0, none, none⟩) := by
  constructor
  · intro nb res
    simp only [SubCell.preprocess, nb_deepcopy_eq, pySlice_full]
  · intro w0 p w1 w3 hw0 hp hw1ne hw1 hw3
    have h1 := thebe_extract_assembled w0 p w3 (some (w1, [], [])) none hw0 hp hw3
      (optAll_some ⟨⟨hw1ne, hw1⟩, Or.inl rfl, Or.inl rfl⟩) optAll_none
    have h2 := thebe_extract_assembled w0 p w3 none none hw0 hp hw3 optAll_none optAll_none
    have e1 : specExtract p (some (w1, [], [])) none = ⟨String.mk p, 0, none, none⟩ := by
      simp [specExtract]
    have e2 : specExtract p none none = ⟨String.mk p, 0, none, none⟩ := by
      simp [specExtract]
    rw [e1] at h1
    rw [e2] at h2
    exact ⟨h1.trans h2.symm, h1⟩

theorem claim_C6_witness :
    SubCell.preprocess (some 0) none nbTwo [] = (nbTwo, []) ∧
    thebe_extract "demo.ipynb cells[:]" = thebe_extract "demo.ipynb" := by
  constructor
  · exact claim_C6.1 nbTwo []
  · have hwnil : WsRun [] := fun c hc => absurd hc (List.not_mem_nil c)
    have h := (claim_C6.2 [] "demo.ipynb".data [' '] [] hwnil ⟨by decide, by decide⟩
      (by decide) ((by decide : ∀ c ∈ [' '], isPySpace c = true)) hwnil).1
    have e1 : String.mk (assembleDirective [] "demo.ipynb".data
        (some ([' '], [], [])) none []) = "demo.ipynb cells[:]" := by decide
    have e2 : String.mk (assembleDirective [] "demo.ipynb".data none none []) =
        "demo.ipynb" := by decide
    rw [e1, e2] at h
    exact h

/-- C7: for every directive whose resolved path
`content / NOTEBOOK_DIR / src` does not exist, `thebe` fails with
`NotebookNotFound` whose message contains the resolved path; the result
is exactly that error, so no other error is raised and no rendering
output is produced. -/
theorem claim_C7 (ctx : ThebeCtx) (markup : String) (d : Directive)
    (hd : thebe_extract markup = .ok d)
    (hnf : os_path_join (os_path_join "content" ctx.NOTEBOOK_DIR) d.src ∉ ctx.fs) :
    thebe ctx markup =
      .error (.NotebookNotFound
        ("File " ++ os_path_join (os_path_join "content" ctx.NOTEBOOK_DIR) d.src ++
          " could not be found")) := by
  simp [thebe, hd, hnf]

theorem claim_C7_witness :
    thebe_extract "demo.ipynb" = .ok ⟨"demo.ipynb", 0, none, none⟩ ∧
    thebe emptyCtx "demo.ipynb" =
      .error (.NotebookNotFound "File content/notebooks/demo.ipynb could not be found") := by
  have hd : thebe_extract "demo.ipynb" = .ok ⟨"demo.ipynb", 0, none, none⟩ := rfl
  have hnf : os_path_join (os_path_join "content" emptyCtx.NOTEBOOK_DIR)
      (Directive.src ⟨"demo.ipynb", 0, none, none⟩) ∉ emptyCtx.fs := by
    simp [emptyCtx]
  have h := claim_C7 emptyCtx "demo.ipynb" ⟨"demo.ipynb", 0, none, none⟩ hd hnf
  have e : ("File " ++ os_path_join (os_path_join "content" emptyCtx.NOTEBOOK_DIR)
      (Directive.src ⟨"demo.ipynb", 0, none, none⟩) ++ " could not be found" : String) =
      "File content/notebooks/demo.ipynb could not be found" := by decide
  rw [e] at h
  exact ⟨hd, h⟩

/-- C8: when the highlighter cannot find a lexer for the effective
language (a `HighlightFailure`), the failure is recovered locally: the
cell's source is rendered as unhighlighted, HTML-escaped plain text
inside the usual wrapper, instead of the rendering failing. This holds
for an explicit unknown language and for the `ipython` default used when
the language is unset. (`_pygments_highlight` is an external nbconvert
collaborator, modelled from the spec's fallback contract.) -/
theorem claim_C8 (lexers : List String) (hlt : String → String → String) (source : String) :
    (∀ l : String, l ≠ "" → l ∉ lexers →
      custom_highlighter lexers hlt source (some l) =
        formatWrap ⟨"highlight-ipynb"⟩ (escapeHtml source)) ∧
    ("ipython" ∉ lexers →
      custom_highlighter lexers hlt source none =
        formatWrap ⟨"highlight-ipynb"⟩ (escapeHtml source)) := by
  constructor
  · intro l hne hfail
    simp [custom_highlighter, pygments_highlight, hne, hfail]
  · intro hfail
    simp [custom_highlighter, pygments_highlight, hfail]

theorem claim_C8_witness :
    custom_highlighter [] (fun _ s => s) "x<-1" (some "python") =
      formatWrap ⟨"highlight-ipynb"⟩ (escapeHtml "x<-1") ∧
    escapeHtml "x<-1" = "x&lt;-1" := by
  refine ⟨(claim_C8 [] (fun _ s => s) "x<-1").1 "python" (by decide) (by simp), by decide⟩

/-- C9: the highlighter adapter always emits its output inside a wrapper
carrying the `highlight-ipynb` CSS class — distinct from the ordinary
`highlight` class of the site's code blocks — and an unset (`None`) or
empty language falls back to the default notebook-native `ipython`
lexer instead of failing. -/
theorem claim_C9 (lexers : List String) (hlt : String → String → String)
    (source : String) (language : Option String) :
    (∃ body, custom_highlighter lexers hlt source language =
      formatWrap ⟨"highlight-ipynb"⟩ body) ∧
    ("highlight-ipynb" : String) ≠ "highlight" ∧
    custom_highlighter lexers hlt source none =
      pygments_highlight lexers hlt source ⟨"highlight-ipynb"⟩ "ipython" ∧
    custom_highlighter lexers hlt source (some "") =
      pygments_highlight lexers hlt source ⟨"highlight-ipynb"⟩ "ipython" := by
  refine ⟨?_, by decide, rfl, rfl⟩
  show ∃ body, pygments_highlight lexers hlt source ⟨"highlight-ipynb"⟩ _ =
    formatWrap ⟨"highlight-ipynb"⟩ body
  unfold pygments_highlight
  split
  · exact ⟨_, rfl⟩
  · exact ⟨_, rfl⟩

/-- C10: the cell-selection step returns its resources argument
unchanged, in both the value-level and the heap-level model of
`SubCell.preprocess`: it never adds to, removes from, or modifies the
resources mapping. -/
theorem claim_C10 :
    (∀ (st en : Option Int) (nb : NB) (res : Resources),
      (SubCell.preprocess st en nb res).2 = res) ∧
    (∀ (σ : List NB) (a : Nat) (st en : Option Int) (res : Resources),
      (SubCell.preprocessHeap σ a st en res).2.2 = res) := by
  constructor
  · intro st en nb res
    rfl
  · intro σ a st en res
    unfold SubCell.preprocessHeap
    cases h : σ[a]? with
    | none => rfl
    | some nb => rfl

theorem claim_C9_witness :
    custom_highlighter [] (fun _ s => s) "print(2)" none =
      pygments_highlight [] (fun _ s => s) "print(2)" ⟨"highlight-ipynb"⟩ "ipython" :=
  (claim_C9 [] (fun _ s => s) "print(2)" none).2.2.1

theorem claim_C10_witness :
    (SubCell.preprocess (some 1) none nbTwo [("css", "x")]).2 = [("css", "x")] :=
  claim_C10.1 (some 1) none nbTwo [("css", "x")]

end Thebe
